import Mathlib

/-!
Verification of the core of `dmitri` (src/main.rs): the incremental
fuzzy-ranking engine (`search`), the selection state machine of the
event loop (`run`), and the glyph rasterizer (`render_text` /
`render_glyphs`).  Rust `f32` scores are modelled as exact rationals.
-/

namespace Dmitri

/-! ## Ranking engine (src/main.rs, `search`) -/

/-- Rust `haystack.find(pat)`: index of the first occurrence of `pat` as a
contiguous substring, scanned on chars (byte and char indices coincide on the
ASCII data ranked here). -/
def findSubAux (pat : List Char) : List Char → Nat → Option Nat
  | [], i => if pat.isEmpty then some i else none
  | c :: cs, i =>
    if pat.isPrefixOf (c :: cs) then some i else findSubAux pat cs (i + 1)

/-- `findSub s pat` models Rust `s.find(pat)`. -/
def findSub (s pat : String) : Option Nat :=
  findSubAux pat.data s.data 0

/-- One insertion step of the stable descending sort: `x` is placed before the
first element whose key does not exceed `x`'s, so elements with strictly larger
keys stay in front and `x` precedes every tied element inserted earlier
(elements that came later in the original list). -/
def insertDesc (key : α → ℚ) (x : α) : List α → List α
  | [] => [x]
  | y :: ys => if key y ≤ key x then x :: y :: ys else y :: insertDesc key x ys

/-- Stable sort, descending by `key`.  Models Rust's stable `sort_by` with the
comparator `b.partial_cmp(&a)` used in `search` (and inside
`fuzzy_search_best_n`): the result is ordered by descending key and tied
elements keep their original relative order. -/
def sortDesc (key : α → ℚ) : List α → List α
  | [] => []
  | x :: xs => insertDesc key x (sortDesc key xs)

/-- Modelled from the spec: the base similarity scorer of the external
`rust_fuzzy_search` crate is, per §4.1, "a replaceable building block — any
monotonic fuzzy-match similarity scorer satisfies the contract"; it enters the
development as the parameter `score`.  `fuzzy_search_best_n s list n` scores
every element of `list` against `s` and returns the `n` best, sorted
descending by score with a stable sort. -/
def fuzzy_search_best_n (score : String → String → ℚ) (s : String)
    (list : List String) (n : Nat) : List (String × ℚ) :=
  (sortDesc Prod.snd (list.map (fun v => (v, score s v)))).take n

/-- The substring boost of `search`: `weight / (start + weight)`. -/
def boost (w : ℚ) (start : Nat) : ℚ := w / (start + w)

/-- The boost pass of `search`: if the candidate contains the query as a
literal substring, add `boost` for its first occurrence to the score. -/
def addBoost (w : ℚ) (input : String) (p : String × ℚ) : String × ℚ :=
  match findSub p.1 input with
  | some start => (p.1, p.2 + boost w start)
  | none => p

/-- `search` from src/main.rs: empty queries short-circuit to `[]`; otherwise
take the 20 best fuzzy matches, add the substring boost, re-sort (stably)
descending by boosted score and drop the scores. -/
def search (score : String → String → ℚ) (input : String)
    (executables : List String) (precise_wheight : ℚ) : List String :=
  if input.length = 0 then []
  else
    let res := fuzzy_search_best_n score input executables 20
    let res := res.map (addBoost precise_wheight input)
    (sortDesc Prod.snd res).map Prod.fst

/-- The boosted score of a candidate, as a function of the candidate. -/
def boostedScore (score : String → String → ℚ) (input : String) (w : ℚ)
    (c : String) : ℚ :=
  score input c + match findSub c input with
                  | some start => boost w start
                  | none => 0

/-- The scored list that `search` projects its output from. -/
def searchScored (score : String → String → ℚ) (input : String)
    (executables : List String) (w : ℚ) : List (String × ℚ) :=
  sortDesc Prod.snd ((fuzzy_search_best_n score input executables 20).map
    (addBoost w input))

/-! ### Sorting lemmas -/

theorem insertDesc_perm (key : α → ℚ) (x : α) (l : List α) :
    List.Perm (insertDesc key x l) (x :: l) := by
  induction l with
  | nil => simp [insertDesc]
  | cons y ys ih =>
    by_cases h : key y ≤ key x
    · simp [insertDesc, h]
    · simp only [insertDesc, if_neg h]
      exact List.Perm.trans (List.Perm.cons y ih) (List.Perm.swap x y ys)

theorem sortDesc_perm (key : α → ℚ) (l : List α) :
    List.Perm (sortDesc key l) l := by
  induction l with
  | nil => simp [sortDesc]
  | cons x xs ih =>
    exact List.Perm.trans (insertDesc_perm key x (sortDesc key xs))
      (List.Perm.cons x ih)

theorem insertDesc_pairwise (key : α → ℚ) (x : α) (l : List α)
    (hl : List.Pairwise (fun a b => key b ≤ key a) l) :
    List.Pairwise (fun a b => key b ≤ key a) (insertDesc key x l) := by
  induction l with
  | nil => simp [insertDesc]
  | cons y ys ih =>
    rcases List.pairwise_cons.mp hl with ⟨hy, hys⟩
    by_cases h : key y ≤ key x
    · simp only [insertDesc, if_pos h]
      refine List.pairwise_cons.mpr ⟨?_, hl⟩
      intro z hz
      rcases List.mem_cons.mp hz with rfl | hz
      · exact h
      · exact le_trans (hy z hz) h
    · simp only [insertDesc, if_neg h]
      refine List.pairwise_cons.mpr ⟨?_, ih hys⟩
      intro z hz
      have hz' : z ∈ x :: ys := (insertDesc_perm key x ys).mem_iff.mp hz
      rcases List.mem_cons.mp hz' with rfl | hz'
      · exact le_of_lt (lt_of_not_le h)
      · exact hy z hz'

theorem sortDesc_pairwise (key : α → ℚ) (l : List α) :
    List.Pairwise (fun a b => key b ≤ key a) (sortDesc key l) := by
  induction l with
  | nil => simp [sortDesc]
  | cons x xs ih => exact insertDesc_pairwise key x (sortDesc key xs) ih

theorem insertDesc_filter_key (key : α → ℚ) (x : α) (l : List α) (k : ℚ) :
    (insertDesc key x l).filter (fun z => decide (key z = k)) =
      (x :: l).filter (fun z => decide (key z = k)) := by
  induction l with
  | nil => simp [insertDesc]
  | cons y ys ih =>
    by_cases h : key y ≤ key x
    · simp [insertDesc, h]
    · by_cases hx : key x = k
      · have hy : ¬ key y = k := by
          intro hyk
          exact h (le_of_eq (hyk.trans hx.symm))
        simp only [insertDesc, if_neg h]
        simp only [List.filter_cons, decide_eq_true_eq, if_neg hy, ih,
          if_pos hx]
      · simp only [insertDesc, if_neg h]
        simp only [List.filter_cons, decide_eq_true_eq, if_neg hx, ih]

theorem sortDesc_filter_key (key : α → ℚ) (l : List α) (k : ℚ) :
    (sortDesc key l).filter (fun z => decide (key z = k)) =
      l.filter (fun z => decide (key z = k)) := by
  induction l with
  | nil => simp [sortDesc]
  | cons x xs ih =>
    calc (insertDesc key x (sortDesc key xs)).filter
          (fun z => decide (key z = k))
        = (x :: sortDesc key xs).filter (fun z => decide (key z = k)) :=
          insertDesc_filter_key key x (sortDesc key xs) k
      _ = (x :: xs).filter (fun z => decide (key z = k)) := by
          simp only [List.filter_cons, ih]

theorem sortDesc_length (key : α → ℚ) (l : List α) :
    (sortDesc key l).length = l.length :=
  (sortDesc_perm key l).length_eq

theorem addBoost_fst (w : ℚ) (input : String) (p : String × ℚ) :
    (addBoost w input p).1 = p.1 := by
  unfold addBoost
  cases findSub p.1 input <;> rfl

/-- Every pair of the final scored list carries the boosted score of its
candidate. -/
theorem searchScored_snd (score : String → String → ℚ) (input : String)
    (exes : List String) (w : ℚ) :
    ∀ p ∈ searchScored score input exes w,
      p.2 = boostedScore score input w p.1 := by
  intro p hp
  have hp1 : p ∈ (fuzzy_search_best_n score input exes 20).map
      (addBoost w input) :=
    (sortDesc_perm Prod.snd _).mem_iff.mp hp
  rcases List.mem_map.mp hp1 with ⟨q, hq, rfl⟩
  have hq1 : q ∈ sortDesc Prod.snd
      (exes.map (fun v => (v, score input v))) :=
    (List.take_sublist 20 _).mem hq
  have hq2 : q ∈ exes.map (fun v => (v, score input v)) :=
    (sortDesc_perm Prod.snd _).mem_iff.mp hq1
  rcases List.mem_map.mp hq2 with ⟨c, _, rfl⟩
  unfold addBoost boostedScore
  cases h : findSub c input <;> simp [h]

theorem search_eq_scored (score : String → String → ℚ) (input : String)
    (exes : List String) (w : ℚ) (h : input.length ≠ 0) :
    search score input exes w =
      (searchScored score input exes w).map Prod.fst := by
  unfold search searchScored
  rw [if_neg h]

/-- In a list of (candidate, score) pairs whose scores are given by `f` and
which is sorted descending by score, a candidate with strictly larger
`f`-score occurs before one with a smaller score. -/
theorem sorted_fst_sublist (f : String → ℚ) (L : List (String × ℚ))
    (hf : ∀ p ∈ L, p.2 = f p.1)
    (hs : List.Pairwise (fun a b : String × ℚ => b.2 ≤ a.2) L)
    (a b : String) (ha : a ∈ L.map Prod.fst) (hb : b ∈ L.map Prod.fst)
    (hab : f b < f a) : List.Sublist [a, b] (L.map Prod.fst) := by
  induction L with
  | nil => simp at ha
  | cons p rest ih =>
    rcases List.pairwise_cons.mp hs with ⟨hp, hrest⟩
    have hftail : ∀ q ∈ rest, q.2 = f q.1 := fun q hq =>
      hf q (List.mem_cons_of_mem p hq)
    simp only [List.map_cons] at ha hb ⊢
    rcases List.mem_cons.mp ha with rfl | ha'
    · have hb' : b ∈ rest.map Prod.fst := by
        rcases List.mem_cons.mp hb with hba | hb'
        · exfalso
          rw [hba] at hab
          exact lt_irrefl _ hab
        · exact hb'
      exact List.Sublist.cons₂ _ (List.singleton_sublist.mpr hb')
    · rcases List.mem_cons.mp hb with hbp | hb'
      · exfalso
        rcases List.mem_map.mp ha' with ⟨q, hq, hq1⟩
        have h1 : q.2 ≤ p.2 := hp q hq
        rw [hftail q hq, hq1, hf p (List.mem_cons_self p rest), ← hbp] at h1
        exact absurd hab (not_lt.mpr h1)
      · exact List.Sublist.cons _ (ih hftail hrest ha' hb')

/-- Membership transfer: a candidate in `search`'s output with its boosted
score is a pair of the final scored list. -/
theorem mem_searchScored_of_mem_search (score : String → String → ℚ)
    (input : String) (exes : List String) (w : ℚ) (c : String)
    (hlen : input.length ≠ 0) (hc : c ∈ search score input exes w) :
    (c, boostedScore score input w c) ∈ searchScored score input exes w := by
  rw [search_eq_scored score input exes w hlen] at hc
  rcases List.mem_map.mp hc with ⟨p, hp, rfl⟩
  have h2 := searchScored_snd score input exes w p hp
  have : p = (p.1, boostedScore score input w p.1) := Prod.ext rfl h2
  rw [← this]
  exact hp

theorem boost_at_zero (w : ℚ) (hw : 0 < w) : boost w 0 = 1 := by
  unfold boost
  rw [Nat.cast_zero, zero_add]
  exact div_self (ne_of_gt hw)

theorem boost_strict_anti (w : ℚ) (hw : 0 < w) (t1 t2 : Nat) (h : t1 < t2) :
    boost w t2 < boost w t1 := by
  unfold boost
  have h1 : (0:ℚ) < (t1 : ℚ) + w := by positivity
  have h2 : ((t1 : ℚ) + w) < ((t2 : ℚ) + w) := by
    have : (t1 : ℚ) < (t2 : ℚ) := by exact_mod_cast h
    linarith
  exact div_lt_div_of_pos_left hw h1 h2

/-! ## Claims about the ranking engine -/

/-- C4: for every scorer, candidate list (including non-empty ones) and
weight, `search` applied to the empty query returns the empty list. -/
theorem search_empty_query (score : String → String → ℚ)
    (exes : List String) (w : ℚ) : search score "" exes w = [] := by
  unfold search
  rfl

/-- C3: for every scorer, query, candidate list and weight, `search` returns
at most 20 results and every result is one of the input candidates. -/
theorem search_length_le_and_mem (score : String → String → ℚ)
    (input : String) (exes : List String) (w : ℚ) :
    (search score input exes w).length ≤ 20
    ∧ ∀ s ∈ search score input exes w, s ∈ exes := by
  constructor
  · unfold search
    by_cases h : input.length = 0
    · simp [h]
    · rw [if_neg h]
      simp only [List.length_map, sortDesc_length]
      unfold fuzzy_search_best_n
      rw [List.length_take]
      exact min_le_left _ _
  · intro s hs
    unfold search at hs
    by_cases h : input.length = 0
    · rw [if_pos h] at hs
      simp at hs
    · rw [if_neg h] at hs
      simp only [List.mem_map] at hs
      rcases hs with ⟨p, hp, rfl⟩
      have hp1 : p ∈ (fuzzy_search_best_n score input exes 20).map
          (addBoost w input) :=
        (sortDesc_perm Prod.snd _).mem_iff.mp hp
      rcases List.mem_map.mp hp1 with ⟨q, hq, rfl⟩
      rw [addBoost_fst]
      have hq1 : q ∈ sortDesc Prod.snd
          (exes.map (fun v => (v, score input v))) :=
        (List.take_sublist 20 _).mem hq
      have hq2 : q ∈ exes.map (fun v => (v, score input v)) :=
        (sortDesc_perm Prod.snd _).mem_iff.mp hq1
      rcases List.mem_map.mp hq2 with ⟨c, hc, rfl⟩
      exact hc

/-- Witness for C3 at a concrete input. -/
theorem search_length_le_and_mem_witness :
    (search (fun _ _ => 0) "a" ["ab"] 1).length ≤ 20 ∧ "ab" ∈ ["ab"] :=
  ⟨(search_length_le_and_mem (fun _ _ => 0) "a" ["ab"] 1).1,
   (search_length_le_and_mem (fun _ _ => 0) "a" ["ab"] 1).2 "ab"
     (by with_unfolding_all decide)⟩

/-- C2: the substring boost is `weight / (start + weight)`, equal to `1` at
`start = 0` and strictly decreasing in `start` for positive weight; hence of
two ranked candidates with equal base fuzzy scores, the one whose substring
match starts earlier appears at least as early in `search`'s output. -/
theorem boost_monotone_rank (score : String → String → ℚ) (q : String)
    (exes : List String) (w : ℚ) (c1 c2 : String) (s1 s2 : Nat)
    (hw : 0 < w)
    (hbase : score q c1 = score q c2)
    (hf1 : findSub c1 q = some s1) (hf2 : findSub c2 q = some s2)
    (hlt : s1 < s2)
    (h1 : c1 ∈ search score q exes w) (h2 : c2 ∈ search score q exes w) :
    boost w 0 = 1
    ∧ (∀ t1 t2 : Nat, t1 < t2 → boost w t2 < boost w t1)
    ∧ List.Sublist [c1, c2] (search score q exes w) := by
  refine ⟨boost_at_zero w hw, fun t1 t2 h => boost_strict_anti w hw t1 t2 h,
    ?_⟩
  have hlen : q.length ≠ 0 := by
    intro h0
    rw [search] at h1
    rw [if_pos h0] at h1
    simp at h1
  have hab : boostedScore score q w c2 < boostedScore score q w c1 := by
    unfold boostedScore
    rw [hf1, hf2, hbase]
    have := boost_strict_anti w hw s1 s2 hlt
    linarith
  rw [search_eq_scored score q exes w hlen] at h1 h2 ⊢
  exact sorted_fst_sublist (boostedScore score q w) _
    (searchScored_snd score q exes w)
    (sortDesc_pairwise Prod.snd _) c1 c2 h1 h2 hab

/-- Witness for C2 at a concrete input: constant base scorer, query "ab",
candidates "xab" (match at 1) and "abx" (match at 0). -/
theorem boost_monotone_rank_witness :
    boost 5 0 = 1
    ∧ (∀ t1 t2 : Nat, t1 < t2 → boost 5 t2 < boost 5 t1)
    ∧ List.Sublist ["abx", "xab"]
        (search (fun _ _ => 0) "ab" ["xab", "abx"] 5) :=
  boost_monotone_rank (fun _ _ => 0) "ab" ["xab", "abx"] 5 "abx" "xab" 0 1
    (by norm_num) rfl (by decide) (by decide) (by decide)
    (by with_unfolding_all decide) (by with_unfolding_all decide)

theorem sublist_pair {α : Type} (a b c d : α)
    (h : List.Sublist [a, b] [c, d]) : a = c ∧ b = d := by
  cases h with
  | cons _ h2 => exact absurd h2.length_le (by simp)
  | cons₂ _ h2 =>
    exact ⟨rfl, List.mem_singleton.mp (List.singleton_sublist.mp h2)⟩

/-- C1 counterexample: with a base scorer assigning "ba" the larger fuzzy
score (a situation the trigram scorer can produce), query "a" over the
provider list ["ab", "ba"] with weight 1 gives both candidates the same
boosted score 1, yet `search` ranks "ba" (provider position 1) before "ab"
(provider position 0): ties in boosted score are not broken by the provider's
original order. -/
theorem search_provider_tiebreak_counterexample :
    boostedScore (fun _ c => if c = "ba" then (1:ℚ)/2 else 0) "a" 1 "ab" =
      boostedScore (fun _ c => if c = "ba" then (1:ℚ)/2 else 0) "a" 1 "ba"
    ∧ search (fun _ c => if c = "ba" then (1:ℚ)/2 else 0) "a" ["ab", "ba"] 1 =
      ["ba", "ab"]
    ∧ ¬ List.Sublist ["ab", "ba"]
        (search (fun _ c => if c = "ba" then (1:ℚ)/2 else 0) "a"
          ["ab", "ba"] 1) := by
  refine ⟨by with_unfolding_all decide, by with_unfolding_all decide, ?_⟩
  intro h
  rw [show search (fun _ c => if c = "ba" then (1:ℚ)/2 else 0) "a"
      ["ab", "ba"] 1 = ["ba", "ab"] from by with_unfolding_all decide] at h
  exact absurd (sublist_pair _ _ _ _ h).1 (by decide)

/-- C1 (amended): `search`'s output is the projection of a list that is
sorted descending by boosted score, and whose ties in boosted score keep the
order of the boosted intermediate list — which is the top-20 prefix of the
candidates sorted descending by base score, itself stable over the provider's
original order.  The tie-break key for equal boosted scores is therefore the
base-score-sorted order, and the provider order only breaks ties among equal
base scores. -/
theorem search_stable_sort (score : String → String → ℚ) (input : String)
    (exes : List String) (w : ℚ) (h : input.length ≠ 0) :
    search score input exes w = (searchScored score input exes w).map Prod.fst
    ∧ List.Pairwise (fun a b : String × ℚ => b.2 ≤ a.2)
        (searchScored score input exes w)
    ∧ (∀ k : ℚ, (searchScored score input exes w).filter
          (fun p => decide (p.2 = k)) =
        ((fuzzy_search_best_n score input exes 20).map
          (addBoost w input)).filter (fun p => decide (p.2 = k)))
    ∧ List.Pairwise (fun a b : String × ℚ => b.2 ≤ a.2)
        (sortDesc Prod.snd (exes.map (fun c => (c, score input c))))
    ∧ (∀ k : ℚ, (sortDesc Prod.snd
          (exes.map (fun c => (c, score input c)))).filter
          (fun p => decide (p.2 = k)) =
        (exes.map (fun c => (c, score input c))).filter
          (fun p => decide (p.2 = k))) :=
  ⟨search_eq_scored score input exes w h,
   sortDesc_pairwise Prod.snd _,
   fun k => sortDesc_filter_key Prod.snd _ k,
   sortDesc_pairwise Prod.snd _,
   fun k => sortDesc_filter_key Prod.snd _ k⟩

/-- Witness for the amended C1 at a concrete input. -/
theorem search_stable_sort_witness :
    search (fun _ _ => 0) "a" ["ab", "ba"] 1 =
      (searchScored (fun _ _ => 0) "a" ["ab", "ba"] 1).map Prod.fst :=
  (search_stable_sort (fun _ _ => 0) "a" ["ab", "ba"] 1 (by decide)).1

/-! ## Selection state machine (src/main.rs, `run`) -/

/-- The mutable state of the event loop in `run`: the typed query, the
current match list and the highlighted index. -/
structure LoopState where
  input : String
  matches' : List String
  matches_i : Option Nat
deriving DecidableEq

/-- Key events consumed by the loop, after the external keysym decoding:
`key c` appends a character (the decoder's shift/lowercasing already
applied), `backspace` deletes the last character, `tab shift` cycles the
selection (advance on `shift = false`, retreat on `shift = true`).  Enter and
Escape terminate the loop and are modelled by `commitOutput` below. -/
inductive LoopEvent where
  | key (c : Char)
  | backspace
  | tab (shift : Bool)
deriving DecidableEq

/-- One iteration of the event-handling loop of `run` on a key event. -/
def step (score : String → String → ℚ) (executables : List String) (w : ℚ)
    (st : LoopState) : LoopEvent → LoopState
  | .tab shift =>
    if st.matches'.length > 1 then
      match st.matches_i with
      | none =>
        if !shift then { st with matches_i := some 0 }
        else { st with matches_i := some (st.matches'.length - 1) }
      | some i =>
        if !shift then
          match st.matches'.get? (i + 1) with
          | some _ => { st with matches_i := some (i + 1) }
          | none => { st with matches_i := none }
        else
          if 0 < i ∧ (st.matches'.get? (i - 1)).isSome then
            { st with matches_i := some (i - 1) }
          else { st with matches_i := none }
    else st
  | .backspace =>
    if st.input.length > 0 then
      let input' : String := ⟨st.input.data.dropLast⟩
      { input := input', matches_i := none,
        matches' := search score input' executables w }
    else st
  | .key c =>
    let input' := st.input.push c
    { input := input', matches_i := none,
      matches' := search score input' executables w }

/-- The string resolved by the Enter branch of `run`. -/
def commitOutput (st : LoopState) : String :=
  match st.matches_i with
  | none => st.input
  | some i => (st.matches'.get? i).getD st.input

/-- The state of `run` before the first event. -/
def initState : LoopState :=
  { input := "", matches' := [], matches_i := none }

/-- The loop state after a sequence of key events. -/
def runEvents (score : String → String → ℚ) (executables : List String)
    (w : ℚ) (evs : List LoopEvent) : LoopState :=
  evs.foldl (step score executables w) initState

/-- The selection index, when present, is in range of the match list. -/
def selectionInvariant (st : LoopState) : Prop :=
  ∀ i, st.matches_i = some i → i < st.matches'.length

theorem tab_preserves (score : String → String → ℚ)
    (exes : List String) (w : ℚ) (st : LoopState) (shift : Bool) :
    (step score exes w st (.tab shift)).matches' = st.matches'
    ∧ (step score exes w st (.tab shift)).input = st.input := by
  simp only [step]
  by_cases h : st.matches'.length > 1
  · rw [if_pos h]
    cases st.matches_i with
    | none => cases shift <;> simp
    | some i =>
      cases shift with
      | false =>
        simp only [Bool.not_false, if_pos]
        cases st.matches'.get? (i + 1) <;> simp
      | true =>
        simp only [Bool.not_true, Bool.false_eq_true, if_false]
        split <;> exact ⟨rfl, rfl⟩
  · rw [if_neg h]
    exact ⟨rfl, rfl⟩

/-- C5: the Tab handler implements the §4.2 table: with more than one match,
advance maps Unselected to Selected 0 and Selected i to Selected (i+1) when
in range, else Unselected; retreat maps Unselected to Selected (len-1),
Selected i with 0 < i to Selected (i-1) and Selected 0 to Unselected; with at
most one match both are no-ops; and from Unselected over a 3-element match
list four advances return to Unselected. -/
theorem selection_table (score : String → String → ℚ) (exes : List String)
    (w : ℚ) (st : LoopState) :
    (st.matches'.length ≤ 1 →
      step score exes w st (.tab false) = st
      ∧ step score exes w st (.tab true) = st)
    ∧ (1 < st.matches'.length →
        (st.matches_i = none →
          (step score exes w st (.tab false)).matches_i = some 0
          ∧ (step score exes w st (.tab true)).matches_i =
              some (st.matches'.length - 1))
        ∧ (∀ i, st.matches_i = some i →
            (i + 1 < st.matches'.length →
              (step score exes w st (.tab false)).matches_i = some (i + 1))
            ∧ (¬ i + 1 < st.matches'.length →
              (step score exes w st (.tab false)).matches_i = none)
            ∧ (0 < i → i < st.matches'.length →
              (step score exes w st (.tab true)).matches_i = some (i - 1))
            ∧ (i = 0 →
              (step score exes w st (.tab true)).matches_i = none)))
    ∧ (st.matches'.length = 3 → st.matches_i = none →
        (step score exes w (step score exes w (step score exes w
            (step score exes w st (.tab false)) (.tab false)) (.tab false))
          (.tab false)).matches_i = none) := by
  refine ⟨?_, ?_, ?_⟩
  · intro h
    have h' : ¬ st.matches'.length > 1 := by omega
    exact ⟨by simp [step, h'], by simp [step, h']⟩
  · intro h
    constructor
    · intro hnone
      constructor
      · simp [step, h, hnone]
      · simp [step, h, hnone]
    · intro i hi
      refine ⟨?_, ?_, ?_, ?_⟩
      · intro hlt
        obtain ⟨v, hv⟩ : ∃ v, st.matches'[i + 1]? = some v :=
          ⟨_, List.getElem?_eq_getElem hlt⟩
        simp [step, h, hi, hv]
      · intro hge
        have hv : st.matches'[i + 1]? = none :=
          List.getElem?_eq_none (by omega)
        simp [step, h, hi, hv]
      · intro hpos hlt
        obtain ⟨v, hv⟩ : ∃ v, st.matches'[i - 1]? = some v :=
          ⟨_, List.getElem?_eq_getElem (by omega)⟩
        simp [step, h, hi, hv, hpos]
      · intro hzero
        subst hzero
        simp [step, h, hi]
  · intro h3 hnone
    rcases st with ⟨inp, ms, mi⟩
    simp only at h3 hnone
    subst hnone
    rcases List.length_eq_three.mp h3 with ⟨a, b, c, rfl⟩
    simp [step]

/-- Witness for C5: four advances over a 3-element match list from
Unselected end Unselected. -/
theorem selection_table_witness :
    (step (fun _ _ => 0) [] 1 (step (fun _ _ => 0) [] 1 (step (fun _ _ => 0)
        [] 1 (step (fun _ _ => 0) [] 1 ⟨"q", ["a", "b", "c"], none⟩
        (.tab false)) (.tab false)) (.tab false)) (.tab false)).matches_i =
      none :=
  (selection_table (fun _ _ => 0) [] 1 ⟨"q", ["a", "b", "c"], none⟩).2.2
    rfl rfl

/-- C6: every query mutation (character append, or backspace that actually
shortens the query) resets the selection to Unselected and recomputes the
match list from the new query via `search`. -/
theorem query_edit_resets (score : String → String → ℚ)
    (exes : List String) (w : ℚ) (st : LoopState) (c : Char) :
    ((step score exes w st (.key c)).matches_i = none
     ∧ (step score exes w st (.key c)).matches' =
         search score (st.input.push c) exes w)
    ∧ (st.input ≠ "" →
        (step score exes w st .backspace).matches_i = none
        ∧ (step score exes w st .backspace).matches' =
            search score ⟨st.input.data.dropLast⟩ exes w) := by
  refine ⟨⟨rfl, rfl⟩, fun h => ?_⟩
  have h0 : st.input.length ≠ 0 := by
    intro h0
    apply h
    have hd : st.input.data = [] := List.length_eq_zero.mp h0
    calc st.input = ⟨st.input.data⟩ := rfl
      _ = "" := by rw [hd]
  have h' : st.input.length > 0 := Nat.pos_of_ne_zero h0
  simp only [step]
  rw [if_pos h']
  exact ⟨rfl, rfl⟩

/-- Witness for C6 at a concrete state with an active selection. -/
theorem query_edit_resets_witness :
    ((step (fun _ _ => 0) [] 1 ⟨"a", [], some 0⟩ (.key 'b')).matches_i = none
     ∧ (step (fun _ _ => 0) [] 1 ⟨"a", [], some 0⟩ (.key 'b')).matches' =
         search (fun _ _ => 0) (("a" : String).push 'b') [] 1)
    ∧ ((step (fun _ _ => 0) [] 1 ⟨"a", [], some 0⟩ .backspace).matches_i =
        none
       ∧ (step (fun _ _ => 0) [] 1 ⟨"a", [], some 0⟩ .backspace).matches' =
          search (fun _ _ => 0) ⟨("a" : String).data.dropLast⟩ [] 1) :=
  ⟨(query_edit_resets (fun _ _ => 0) [] 1 ⟨"a", [], some 0⟩ 'b').1,
   (query_edit_resets (fun _ _ => 0) [] 1 ⟨"a", [], some 0⟩ 'b').2
     (by decide)⟩

theorem step_selection_inv (score : String → String → ℚ)
    (exes : List String) (w : ℚ) (st : LoopState) (ev : LoopEvent)
    (h : selectionInvariant st) :
    selectionInvariant (step score exes w st ev) := by
  cases ev with
  | key c =>
    intro i hi
    simp [step] at hi
  | backspace =>
    intro i hi
    simp only [step] at hi ⊢
    by_cases hl : st.input.length > 0
    · rw [if_pos hl] at hi
      simp at hi
    · rw [if_neg hl] at hi ⊢
      exact h i hi
  | tab shift =>
    intro i hi
    rw [(tab_preserves score exes w st shift).1]
    simp only [step] at hi
    by_cases h1 : st.matches'.length > 1
    · rw [if_pos h1] at hi
      cases hmi : st.matches_i with
      | none =>
        rw [hmi] at hi
        cases shift with
        | false =>
          simp only [Bool.not_false, if_pos] at hi
          have : i = 0 := by simpa using hi.symm
          omega
        | true =>
          simp only [Bool.not_true, Bool.false_eq_true, if_false] at hi
          have : i = st.matches'.length - 1 := by simpa using hi.symm
          omega
      | some j =>
        rw [hmi] at hi
        cases shift with
        | false =>
          simp only [Bool.not_false, if_pos] at hi
          cases hg : st.matches'.get? (j + 1) with
          | none =>
            rw [hg] at hi
            simp at hi
          | some v =>
            rw [hg] at hi
            rcases List.get?_eq_some.mp hg with ⟨h2, _⟩
            have h3 : i = j + 1 := by simpa using hi.symm
            omega
        | true =>
          simp only [Bool.not_true, Bool.false_eq_true, if_false] at hi
          by_cases hc : 0 < j ∧ (st.matches'.get? (j - 1)).isSome
          · rw [if_pos hc] at hi
            have h2 : j - 1 < st.matches'.length := by
              rcases Option.isSome_iff_exists.mp hc.2 with ⟨v, hv⟩
              rcases List.get?_eq_some.mp hv with ⟨h2, _⟩
              exact h2
            have h3 : i = j - 1 := by simpa using hi.symm
            omega
          · rw [if_neg hc] at hi
            simp at hi
    · rw [if_neg h1] at hi
      exact h i hi

theorem foldl_selection_inv (score : String → String → ℚ)
    (exes : List String) (w : ℚ) (evs : List LoopEvent) (st : LoopState)
    (h : selectionInvariant st) :
    selectionInvariant (evs.foldl (step score exes w) st) := by
  induction evs generalizing st with
  | nil => exact h
  | cons e es ih => exact ih _ (step_selection_inv score exes w st e h)

/-- C7: in every state reachable from the initial state by append,
backspace, advance and retreat events, the selection index is either `none`
or in range of the match list. -/
theorem reachable_selection_in_range (score : String → String → ℚ)
    (exes : List String) (w : ℚ) (evs : List LoopEvent) :
    selectionInvariant (runEvents score exes w evs) :=
  foldl_selection_inv score exes w evs initState
    (by intro i hi; simp [initState] at hi)

/-- Witness for C7 at a concrete event sequence. -/
theorem reachable_selection_in_range_witness :
    selectionInvariant (runEvents (fun _ _ => 0) ["a", "b"] 1
      [.tab false, .tab true, .backspace]) :=
  reachable_selection_in_range (fun _ _ => 0) ["a", "b"] 1
    [.tab false, .tab true, .backspace]

/-- C8: on commit, `Selected i` with `i` in range resolves to the i-th
match, and `Unselected` resolves to the raw query text. -/
theorem commit_resolution (st : LoopState) :
    (∀ i, st.matches_i = some i → ∀ h : i < st.matches'.length,
       commitOutput st = st.matches'.get ⟨i, h⟩)
    ∧ (st.matches_i = none → commitOutput st = st.input) := by
  constructor
  · intro i hi h
    have hco : commitOutput st = (st.matches'.get? i).getD st.input := by
      unfold commitOutput
      rw [hi]
    rw [hco, List.get?_eq_get h]
    rfl
  · intro hn
    unfold commitOutput
    rw [hn]

/-- Witness for C8 in both resolution modes. -/
theorem commit_resolution_witness :
    commitOutput ⟨"q", ["a", "b"], some 1⟩ = "b"
    ∧ commitOutput ⟨"q", ["a", "b"], none⟩ = "q" :=
  ⟨(commit_resolution ⟨"q", ["a", "b"], some 1⟩).1 1 rfl (by decide),
   (commit_resolution ⟨"q", ["a", "b"], none⟩).2 rfl⟩

/-- C10: a backspace event while the query is already empty leaves the
whole state unchanged (no re-ranking, no selection change). -/
theorem backspace_empty_noop (score : String → String → ℚ)
    (exes : List String) (w : ℚ) (st : LoopState) (h : st.input = "") :
    step score exes w st .backspace = st := by
  simp only [step]
  rw [h]
  rfl

/-- Witness for C10 at a concrete state with a non-trivial match list and
selection. -/
theorem backspace_empty_noop_witness :
    step (fun _ _ => 0) ["x"] 1 ⟨"", ["x"], some 0⟩ .backspace =
      ⟨"", ["x"], some 0⟩ :=
  backspace_empty_noop (fun _ _ => 0) ["x"] 1 ⟨"", ["x"], some 0⟩ rfl

/-! ## Glyph rasterizer (src/main.rs, `render_text` / `render_glyphs`) -/

/-- An RGB color, 8-bit components. -/
abbrev Color := ℕ × ℕ × ℕ

/-- The pixel buffer, addressed like `Image::set_pixel` by (x, y). -/
abbrev Image := Int → Int → ℕ

/-- `Image::set_pixel`. -/
def setPixel (img : Image) (x y : Int) (v : ℕ) : Image :=
  fun a b => if a = x ∧ b = y then v else img a b

/-- Modelled from the spec: the `rgb` packing helper (absent from src) packs
8-bit components as 0xRRGGBB, per the repository's own comment "pixel values
are 0xRRGGBB with RR/GG/BB being the colors". -/
def rgb (r g b : ℕ) : ℕ := r * 65536 + g * 256 + b

/-- Rust's saturating cast `(c as f32 * v) as u8`: clamp to [0, 255],
truncating toward zero. -/
def u8cast (q : ℚ) : ℕ := min 255 (max 0 q.floor).toNat

/-- A glyph's pixel bounding box (`glyph.pixel_bounding_box()`). -/
structure BBox where
  minX : Int
  minY : Int
  maxX : Int

/-- Modelled from the spec: the glyph data produced by the external font
rasterizer (rusttype `font.layout`) — an optional pixel bounding box, the
coverage points (x, y, v) fed to the `draw` closure, and the pen position
`glyph.position().x` used for glyphs without a bounding box. -/
structure Glyph where
  bbox : Option BBox
  coverage : List (ℕ × ℕ × ℚ)
  posX : ℕ

/-- State threaded through one glyph's `draw` closure in `render_glyphs`:
the image, the `outside` flag, and `next_x`. -/
structure DrawState where
  img : Image
  outside : Bool
  nextX : ℕ

/-- One `draw`-closure callback of `render_glyphs`: the absolute x is
`margin + offset + (px + bbox.min.x)` and the pixel is written only when
`x < width - 2*margin`; a negative coordinate becomes a huge value under
Rust's `as usize` two's-complement wrap and also fails that bound, so the
write condition is `0 ≤ x < width - 2*margin`.  A rejected pixel sets the
`outside` flag; a written pixel updates `next_x` to
`offset + bounding_box.max.x as u32`. -/
def drawPix (width margin offset : ℕ) (color : Color) (bb : BBox)
    (st : DrawState) (p : ℕ × ℕ × ℚ) : DrawState :=
  if 0 ≤ (margin : Int) + offset + ((p.1 : Int) + bb.minX) ∧
      (margin : Int) + offset + ((p.1 : Int) + bb.minX) <
        (width : Int) - 2 * margin then
    ⟨setPixel st.img ((margin : Int) + offset + ((p.1 : Int) + bb.minX))
        ((margin : Int) + ((p.2.1 : Int) + bb.minY))
        (rgb (u8cast ((color.1 : ℚ) * p.2.2))
          (u8cast ((color.2.1 : ℚ) * p.2.2))
          (u8cast ((color.2.2 : ℚ) * p.2.2))),
      st.outside, offset + (bb.maxX.emod 4294967296).toNat⟩
  else ⟨st.img, true, st.nextX⟩

/-- The glyph loop of `render_glyphs`: glyphs with a bounding box are drawn
pixel by pixel and the loop breaks once a glyph ran outside the boundary;
glyphs without one only advance `next_x` by the pen position. -/
def renderGlyphsGo (width margin offset : ℕ) (color : Color) :
    List Glyph → Image → ℕ → Image × ℕ
  | [], img, nextX => (img, nextX)
  | g :: gs, img, nextX =>
    match g.bbox with
    | some bb =>
      let st := g.coverage.foldl (drawPix width margin offset color bb)
        ⟨img, false, nextX⟩
      if st.outside then (st.img, st.nextX)
      else renderGlyphsGo width margin offset color gs st.img st.nextX
    | none =>
      renderGlyphsGo width margin offset color gs img (offset + g.posX)

/-- `render_glyphs`: lay out `text + " "` and draw the glyphs, returning the
new image and the advanced horizontal position. -/
def render_glyphs (width margin : ℕ) (layout : String → List Glyph)
    (offset : ℕ) (text : String) (color : Color) (img : Image) :
    Image × ℕ :=
  renderGlyphsGo width margin offset color (layout (text ++ " ")) img offset

/-- The clear pass of `render_text`: every pixel of the width × height
buffer is set to 0. -/
def clearImage (width height : ℕ) (img : Image) : Image :=
  (List.range width).foldl
    (fun im (x : ℕ) => (List.range height).foldl
      (fun im2 (y : ℕ) => setPixel im2 (x : Int) (y : Int) 0) im) img

/-- The match loop of `render_text`: a separator space then the match text
(primary color exactly on the selected index), stopping after the first
match whose advance exceeds the width. -/
def renderMatches (width margin : ℕ) (layout : String → List Glyph)
    (colorP colorS : Color) (mi : Option ℕ) :
    List (ℕ × String) → Image → ℕ → Image × ℕ
  | [], img, x => (img, x)
  | (i, m) :: rest, img, x =>
    let r1 := render_glyphs width margin layout x " " colorS img
    let color := match mi with
      | some m_i => if m_i = i then colorP else colorS
      | none => colorS
    let r2 := render_glyphs width margin layout r1.2 m color r1.1
    if r2.2 > width then (r2.1, r2.2)
    else renderMatches width margin layout colorP colorS mi rest r2.1 r2.2

/-- `render_text`: clear the buffer, then draw either the placeholder
underscore (empty query) or the query followed by the enumerated matches. -/
def render_text (width height margin : ℕ) (layout : String → List Glyph)
    (colorP colorS : Color) (input : String) (ms : List String)
    (mi : Option ℕ) (img : Image) : Image :=
  let img0 := clearImage width height img
  if input.length = 0 then
    (render_glyphs width margin layout 0 "_" colorP img0).1
  else
    let color := if mi.isNone then colorP else colorS
    let r1 := render_glyphs width margin layout 0 input color img0
    (renderMatches width margin layout colorP colorS mi ms.enum r1.1
      r1.2).1

theorem setPixel_eval (img : Image) (x y : Int) (v : ℕ) (a b : Int) :
    setPixel img x y v a b = if a = x ∧ b = y then v else img a b :=
  rfl

theorem setPixel_ne (img : Image) (x y : Int) (v : ℕ) (a b : Int)
    (h : ¬(a = x ∧ b = y)) : setPixel img x y v a b = img a b :=
  if_neg h

/-- A draw callback never writes at or beyond `width - 2*margin`. -/
theorem drawPix_outside (width margin offset : ℕ) (color : Color)
    (bb : BBox) (st : DrawState) (p : ℕ × ℕ × ℚ) (a b : Int)
    (ha : (width : Int) - 2 * margin ≤ a) :
    (drawPix width margin offset color bb st p).img a b = st.img a b := by
  unfold drawPix
  split
  · rename_i hc
    apply setPixel_ne
    rintro ⟨rfl, -⟩
    omega
  · rfl

theorem foldl_drawPix_outside (width margin offset : ℕ) (color : Color)
    (bb : BBox) (cov : List (ℕ × ℕ × ℚ)) (st : DrawState) (a b : Int)
    (ha : (width : Int) - 2 * margin ≤ a) :
    (cov.foldl (drawPix width margin offset color bb) st).img a b =
      st.img a b := by
  induction cov generalizing st with
  | nil => rfl
  | cons p ps ih =>
    rw [List.foldl_cons, ih _,
      drawPix_outside width margin offset color bb st p a b ha]

theorem renderGlyphsGo_outside (width margin offset : ℕ) (color : Color)
    (gs : List Glyph) (img : Image) (nextX : ℕ) (a b : Int)
    (ha : (width : Int) - 2 * margin ≤ a) :
    (renderGlyphsGo width margin offset color gs img nextX).1 a b =
      img a b := by
  induction gs generalizing img nextX with
  | nil => rfl
  | cons g gs ih =>
    simp only [renderGlyphsGo]
    cases g.bbox with
    | some bb =>
      simp only
      split
      · exact foldl_drawPix_outside width margin offset color bb
          g.coverage ⟨img, false, nextX⟩ a b ha
      · rw [ih]
        exact foldl_drawPix_outside width margin offset color bb
          g.coverage ⟨img, false, nextX⟩ a b ha
    | none => exact ih img (offset + g.posX)

theorem render_glyphs_outside (width margin : ℕ)
    (layout : String → List Glyph) (offset : ℕ) (text : String)
    (color : Color) (img : Image) (a b : Int)
    (ha : (width : Int) - 2 * margin ≤ a) :
    (render_glyphs width margin layout offset text color img).1 a b =
      img a b :=
  renderGlyphsGo_outside width margin offset color (layout (text ++ " "))
    img offset a b ha

theorem renderMatches_outside (width margin : ℕ)
    (layout : String → List Glyph) (cP cS : Color) (mi : Option ℕ)
    (ml : List (ℕ × String)) (img : Image) (x0 : ℕ) (a b : Int)
    (ha : (width : Int) - 2 * margin ≤ a) :
    (renderMatches width margin layout cP cS mi ml img x0).1 a b =
      img a b := by
  induction ml generalizing img x0 with
  | nil => rfl
  | cons p rest ih =>
    rcases p with ⟨i, m⟩
    simp only [renderMatches]
    split
    · rw [render_glyphs_outside _ _ _ _ _ _ _ a b ha,
        render_glyphs_outside _ _ _ _ _ _ _ a b ha]
    · rw [ih, render_glyphs_outside _ _ _ _ _ _ _ a b ha,
        render_glyphs_outside _ _ _ _ _ _ _ a b ha]

/-- One cleared column-run: the inner `for y in 0..height` loop. -/
theorem clearCol_eq (x0 : ℕ) (n : ℕ) (im : Image) (a b : Int) :
    ((List.range n).foldl
        (fun im2 (y : ℕ) => setPixel im2 (x0 : Int) (y : Int) 0) im) a b =
      if a = (x0 : Int) ∧ 0 ≤ b ∧ b < (n : Int) then 0 else im a b := by
  induction n with
  | zero =>
    rw [List.range_zero, List.foldl_nil, if_neg]
    rintro ⟨-, h2, h3⟩
    omega
  | succ n ih =>
    rw [List.range_succ, List.foldl_append, List.foldl_cons, List.foldl_nil,
      setPixel_eval]
    by_cases hab : a = (x0 : Int) ∧ b = (n : Int)
    · rw [if_pos hab, if_pos ⟨hab.1, by omega, by push_cast; omega⟩]
    · rw [if_neg hab, ih]
      by_cases h2 : a = (x0 : Int) ∧ 0 ≤ b ∧ b < (n : Int)
      · rw [if_pos h2, if_pos ⟨h2.1, h2.2.1, by push_cast; omega⟩]
      · rw [if_neg h2, if_neg]
        rintro ⟨hx, hb0, hbs⟩
        push_cast at hbs
        have hd : b = (n : Int) ∨ b < (n : Int) := by omega
        rcases hd with hd | hd
        · exact hab ⟨hx, hd⟩
        · exact h2 ⟨hx, hb0, hd⟩

/-- The full clear pass zeroes exactly the width × height rectangle. -/
theorem clearImage_eq (width height : ℕ) (img : Image) (a b : Int) :
    clearImage width height img a b =
      if 0 ≤ a ∧ a < (width : Int) ∧ 0 ≤ b ∧ b < (height : Int) then 0
      else img a b := by
  unfold clearImage
  induction width with
  | zero =>
    rw [List.range_zero, List.foldl_nil, if_neg]
    rintro ⟨h1, h2, -⟩
    omega
  | succ n ih =>
    rw [List.range_succ, List.foldl_append, List.foldl_cons, List.foldl_nil,
      clearCol_eq, ih]
    by_cases hab : a = (n : Int) ∧ 0 ≤ b ∧ b < (height : Int)
    · rw [if_pos hab,
        if_pos ⟨by omega, by push_cast; omega, hab.2.1, hab.2.2⟩]
    · rw [if_neg hab]
      by_cases h2 : 0 ≤ a ∧ a < (n : Int) ∧ 0 ≤ b ∧ b < (height : Int)
      · rw [if_pos h2,
          if_pos ⟨h2.1, by push_cast; omega, h2.2.2.1, h2.2.2.2⟩]
      · rw [if_neg h2, if_neg]
        rintro ⟨ha0, has, hb0, hbh⟩
        push_cast at has
        have hd : a = (n : Int) ∨ a < (n : Int) := by omega
        rcases hd with hd | hd
        · exact hab ⟨hd, hb0, hbh⟩
        · exact h2 ⟨ha0, hd, hb0, hbh⟩

/-- C9: for every render pass with `2*margin ≤ width`, after `render_text`
every buffer pixel whose x-coordinate is at or beyond `width - 2*margin`
holds zero: the buffer is cleared first and `render_glyphs` clips every
glyph pixel to `x < width - 2*margin`. -/
theorem render_text_strip_zero (width height margin : ℕ)
    (layout : String → List Glyph) (cP cS : Color) (input : String)
    (ms : List String) (mi : Option ℕ) (img : Image)
    (hm : 2 * margin ≤ width) (x y : Int)
    (hx1 : (width : Int) - 2 * margin ≤ x) (hx2 : x < (width : Int))
    (hy1 : 0 ≤ y) (hy2 : y < (height : Int)) :
    render_text width height margin layout cP cS input ms mi img x y =
      0 := by
  have hmi : (2 * margin : Int) ≤ (width : Int) := by exact_mod_cast hm
  have hx0 : 0 ≤ x := by omega
  simp only [render_text]
  split
  · rw [render_glyphs_outside _ _ _ _ _ _ _ x y hx1, clearImage_eq,
      if_pos ⟨hx0, hx2, hy1, hy2⟩]
  · rw [renderMatches_outside _ _ _ _ _ _ _ _ _ x y hx1,
      render_glyphs_outside _ _ _ _ _ _ _ x y hx1, clearImage_eq,
      if_pos ⟨hx0, hx2, hy1, hy2⟩]

/-- Witness for C9 at a concrete render pass with an out-of-bounds glyph. -/
theorem render_text_strip_zero_witness :
    render_text 6 2 1 (fun _ => [⟨some ⟨0, 0, 9⟩,
        [(0, 0, 1), (9, 0, 1)], 0⟩]) (255, 136, 0) (127, 68, 0) "a"
      ["abc"] none (fun _ _ => 7) 5 0 = 0 :=
  render_text_strip_zero 6 2 1 (fun _ => [⟨some ⟨0, 0, 9⟩,
      [(0, 0, 1), (9, 0, 1)], 0⟩]) (255, 136, 0) (127, 68, 0) "a"
    ["abc"] none (fun _ _ => 7) (by decide) 5 0 (by decide) (by decide)
    (by decide) (by decide)

end Dmitri
